import Mathlib

/-!
Verification of the filtering / grouping / sampling engine of the
"How I AI" catalog application.

The definitions below are a shallow embedding of the TypeScript source:

* `UseCaseFlat`, `Episode`, `EpisodeAnalysis`, `UseCase` mirror `lib/types.ts`;
* `homeMatches` / `homeFiltered` mirror the `filtered` memo of
  `components/HomeClient.tsx` (role, intent, free-text search);
* `ucMatches` / `ucFiltered` mirror the `filtered` memo of `UseCasesClient`
  (free text, category set, difficulty set, role);
* `picks` / `filteredPicks` mirror the pick views of `HomeClient.tsx`;
* `groupsOf` / `sortGroups` / `groupByCategory` mirror the `grouped` memo
  (JS object insertion order is modelled by an association list built in
  first-occurrence order, and the stable `Array.prototype.sort` by a stable
  insertion sort on descending group size);
* `window` / `CARDS_PER_CATEGORY` mirror the per-category pagination;
* `samplePool` / `sample` mirror `handleSurpriseMe` (the random float in
  `[0,1)` is abstracted into the chosen index; JS out-of-bounds indexing
  yielding `undefined` is modelled by `Option`);
* `getAllTools` / `getAllCategories` / `getAllAudiences` mirror `lib/data.ts`
  (a JS `Set` is modelled by insertion-order deduplication, `Array.sort()`
  by an insertion sort on the default string ordering);
* `Json`, `getEpisodesModel`, `getUseCasesModel` mirror the data-loading
  functions of `lib/data.ts` operating on an already-parsed JSON value
  (text-level `JSON.parse` and file I/O are outside the embedded core).

JavaScript string truthiness (a string is falsy iff empty) is modelled
explicitly wherever the source relies on it.
-/

/-! ### String helpers (JS `includes`, `toLowerCase`, `trim`) -/

/-- Model of a prefix test on character lists: `startsW needle hay` is true
iff `needle` occurs at the start of `hay`. -/
def startsW : List Char → List Char → Bool
  | [], _ => true
  | _ :: _, [] => false
  | c :: cs, h :: hs => c == h && startsW cs hs

/-- Model of a substring occurrence test on character lists. -/
def hasSub (needle : List Char) : List Char → Bool
  | [] => needle.isEmpty
  | h :: hs => startsW needle (h :: hs) || hasSub needle hs

/-- Model of JavaScript `hay.includes(needle)` (substring containment). -/
def strIncludes (hay needle : String) : Bool :=
  hasSub needle.data hay.data

/-- Model of JavaScript `toLowerCase` (character-wise lowering). -/
def strToLower (s : String) : String :=
  String.mk (s.data.map Char.toLower)

/-- Whitespace test used by the model of JavaScript `trim`. -/
def isWs (c : Char) : Bool :=
  c == ' ' || c == '\t' || c == '\n' || c == '\r'

/-- Model of JavaScript `trim`: drop leading and trailing whitespace. -/
def strTrim (s : String) : String :=
  String.mk (((s.data.dropWhile isWs).reverse.dropWhile isWs).reverse)

/-! ### Data model (`lib/types.ts`) -/

/-- Nested use-case record as in `lib/types.ts`. -/
structure UseCase where
  title : String
  one_liner : Option String
  description : String
  tools : List String
  category : String
  audience : String
  difficulty : String
  timestamp_seconds : Option Int
  intents : List String
  is_pick : Bool
  pick_reason : Option String
deriving DecidableEq

/-- Analysis payload of an episode as in `lib/types.ts`. -/
structure EpisodeAnalysis where
  guest_name : Option String
  guest_role : Option String
  summary : Option String
  key_takeaways : List String
  use_cases : List UseCase
  tools_mentioned : List String
  notable_quotes : List String
deriving DecidableEq

/-- Episode (container) record as in `lib/types.ts`. -/
structure Episode where
  id : String
  title : String
  description : String
  publish_date : String
  duration_seconds : Int
  thumbnail_url : String
  url : String
  transcript : Option String
  analysis : Option EpisodeAnalysis
deriving DecidableEq

/-- Flattened use-case record (`UseCaseFlat` in `lib/types.ts`): a use case
denormalized with fields of its owning episode. -/
structure UseCaseFlat where
  title : String
  one_liner : Option String
  description : String
  tools : List String
  category : String
  audience : String
  difficulty : String
  timestamp_seconds : Option Int
  intents : List String
  is_pick : Bool
  pick_reason : Option String
  episode_id : String
  episode_title : String
  episode_url : Option String
  guest_name : Option String
  guest_role : Option String
  publish_date : String
deriving DecidableEq

/-! ### Query state -/

/-- Query state of `HomeClient` (search box, role picker, intent picker). -/
structure HomeQuery where
  search : String
  selectedRole : Option String
  selectedIntent : Option String

/-- Query state of `UseCasesClient` (search box, role picker, category and
difficulty tag filters). -/
structure UCQuery where
  search : String
  selectedRole : Option String
  selectedCategories : List String
  selectedDifficulties : List String

/-! ### Query evaluator (`HomeClient.tsx` lines 72-101, `UseCasesClient`) -/

/-- Model of `[...].filter(Boolean)` over string-or-null entries: keep the
present, non-empty strings. -/
def truthyFields (l : List (Option String)) : List String :=
  l.filterMap (fun o => match o with
    | some s => if s == "" then none else some s
    | none => none)

/-- Search-surface field list of `HomeClient`: title, one-liner, description,
guest name, episode title, every tool, category. -/
def fieldsHome (uc : UseCaseFlat) : List (Option String) :=
  [some uc.title, uc.one_liner, some uc.description, uc.guest_name,
    some uc.episode_title] ++ uc.tools.map some ++ [some uc.category]

/-- Joined, lowercased search surface of `HomeClient`
(`.filter(Boolean).join(" ").toLowerCase()`). -/
def searchableHome (uc : UseCaseFlat) : String :=
  strToLower (String.intercalate " " (truthyFields (fieldsHome uc)))

/-- Search-surface field list of `UseCasesClient`: title, description,
guest name, episode title, every tool (no one-liner, no category). -/
def fieldsUC (uc : UseCaseFlat) : List (Option String) :=
  [some uc.title, some uc.description, uc.guest_name,
    some uc.episode_title] ++ uc.tools.map some

/-- Joined, lowercased search surface of `UseCasesClient`. -/
def searchableUC (uc : UseCaseFlat) : String :=
  strToLower (String.intercalate " " (truthyFields (fieldsUC uc)))

/-- Role criterion (`if (selectedRole) { if (uc.audience !== selectedRole &&
uc.audience !== "everyone") return false; }`); a null or empty selection is
falsy in JS and imposes no constraint. -/
def rolePass (sel : Option String) (uc : UseCaseFlat) : Bool :=
  match sel with
  | none => true
  | some role => if role == "" then true
      else uc.audience == role || uc.audience == "everyone"

/-- Intent criterion (`if (selectedIntent) { if
(!uc.intents?.includes(selectedIntent)) return false; }`). -/
def intentPass (sel : Option String) (uc : UseCaseFlat) : Bool :=
  match sel with
  | none => true
  | some it => if it == "" then true else uc.intents.contains it

/-- Free-text criterion of `HomeClient` (`const q = search.toLowerCase();
if (q) { ... if (!searchable.includes(q)) return false; }`). -/
def searchPassHome (search : String) (uc : UseCaseFlat) : Bool :=
  let ql := strToLower search
  if ql == "" then true else strIncludes (searchableHome uc) ql

/-- Free-text criterion of `UseCasesClient`. -/
def searchPassUC (search : String) (uc : UseCaseFlat) : Bool :=
  let ql := strToLower search
  if ql == "" then true else strIncludes (searchableUC uc) ql

/-- Multi-value facet criterion of `UseCasesClient`
(`selected.length > 0 && !selected.includes(value)` rejects). -/
def facetPass (sel : List String) (v : String) : Bool :=
  if sel.isEmpty then true else sel.contains v

/-- Predicate of the `filtered` memo of `HomeClient.tsx`: all active
criteria must pass. -/
def homeMatches (q : HomeQuery) (uc : UseCaseFlat) : Bool :=
  rolePass q.selectedRole uc && intentPass q.selectedIntent uc &&
    searchPassHome q.search uc

/-- The `filtered` memo of `HomeClient.tsx`. -/
def homeFiltered (useCases : List UseCaseFlat) (q : HomeQuery) :
    List UseCaseFlat :=
  useCases.filter (homeMatches q)

/-- Predicate of the `filtered` memo of `UseCasesClient` (search, category
set, difficulty set, role — in source order). -/
def ucMatches (q : UCQuery) (uc : UseCaseFlat) : Bool :=
  searchPassUC q.search uc && facetPass q.selectedCategories uc.category &&
    facetPass q.selectedDifficulties uc.difficulty &&
    rolePass q.selectedRole uc

/-- The `filtered` memo of `UseCasesClient`. -/
def ucFiltered (useCases : List UseCaseFlat) (q : UCQuery) :
    List UseCaseFlat :=
  useCases.filter (ucMatches q)

/-- The `picks` memo of `HomeClient.tsx` line 69. -/
def picks (useCases : List UseCaseFlat) : List UseCaseFlat :=
  useCases.filter (fun uc => uc.is_pick)

/-- The `filteredPicks` memo of `HomeClient.tsx` lines 104-106. -/
def filteredPicks (useCases : List UseCaseFlat) (q : HomeQuery) :
    List UseCaseFlat :=
  (homeFiltered useCases q).filter (fun uc => uc.is_pick)

/-! ### Grouping and pagination (`HomeClient.tsx` lines 109-117, 391-395) -/

/-- Group key of a record: `uc.category || "other"` (empty string is the
only falsy category). -/
def catKey (r : UseCaseFlat) : String :=
  if r.category == "" then "other" else r.category

/-- Insert a record under a key in the association list that models the
`groups` object: push onto the existing entry, or append a new key at the
end (JS objects keep string keys in insertion order). -/
def addToGroups : List (String × List UseCaseFlat) → String → UseCaseFlat →
    List (String × List UseCaseFlat)
  | [], k, r => [(k, [r])]
  | (k', v) :: rest, k, r =>
      if k' == k then (k', v ++ [r]) :: rest
      else (k', v) :: addToGroups rest k r

/-- Build the category groups in first-occurrence order (the `for` loop of
the `grouped` memo). -/
def groupsOf (records : List UseCaseFlat) : List (String × List UseCaseFlat) :=
  records.foldl (fun gs r => addToGroups gs (catKey r) r) []

/-- Stable insertion of a group into a list sorted by descending member
count (the element being inserted is original-first, so it goes before
groups of equal size). -/
def insertGroup (x : String × List UseCaseFlat) :
    List (String × List UseCaseFlat) → List (String × List UseCaseFlat)
  | [] => [x]
  | h :: t => if h.2.length ≤ x.2.length then x :: h :: t
      else h :: insertGroup x t

/-- Stable sort by descending member count, modelling
`Object.entries(groups).sort((a, b) => b[1].length - a[1].length)`
(`Array.prototype.sort` is stable). -/
def sortGroups : List (String × List UseCaseFlat) →
    List (String × List UseCaseFlat)
  | [] => []
  | x :: xs => insertGroup x (sortGroups xs)

/-- The `grouped` memo of `HomeClient.tsx`: group by category key, sort by
descending count. -/
def groupByCategory (records : List UseCaseFlat) :
    List (String × List UseCaseFlat) :=
  sortGroups (groupsOf records)

/-- Index of the first record carrying a given group key (records.length if
absent); used to state the tie-break order of the grouping. -/
def fIdxAux (k : String) : List UseCaseFlat → Nat
  | [] => 0
  | r :: rest => if catKey r == k then 0 else fIdxAux k rest + 1

/-- Page size of a category section (`const CARDS_PER_CATEGORY = 6`). -/
def CARDS_PER_CATEGORY : Nat := 6

/-- Visible window of a group (`visibleCount = isExpanded ?
categoryUseCases.length : CARDS_PER_CATEGORY; visible =
categoryUseCases.slice(0, visibleCount)`). -/
def window (group : List UseCaseFlat) (expanded : Bool) (pageSize : Nat) :
    List UseCaseFlat :=
  group.take (if expanded then group.length else pageSize)

/-! ### Sampler (`handleSurpriseMe`, `HomeClient.tsx` lines 134-138) -/

/-- Pool selection: `const pool = filtered.length > 0 ? filtered :
useCases`. -/
def samplePool (filtered useCases : List UseCaseFlat) : List UseCaseFlat :=
  if filtered.length > 0 then filtered else useCases

/-- Drawing `pool[Math.floor(Math.random() * pool.length)]`: the random
index is abstracted into the parameter `i` (for a non-empty pool the floor
of `random * length` is some `i < length`; for an empty pool it is `0`),
and JS out-of-bounds indexing returning `undefined` is `none`. -/
def sample (filtered useCases : List UseCaseFlat) (i : Nat) :
    Option UseCaseFlat :=
  (samplePool filtered useCases).get? i

/-! ### Facet value sets (`lib/data.ts` lines 38-64) -/

/-- Model of `Set.add` on a JS `Set` kept as an insertion-order list. -/
def setAdd (l : List String) (s : String) : List String :=
  if l.contains s then l else l ++ [s]

/-- Stable insertion into a list sorted by the default string order,
modelling `Array.prototype.sort()`. -/
def insertStr (x : String) : List String → List String
  | [] => [x]
  | h :: t => if compare x h ≠ Ordering.gt then x :: h :: t
      else h :: insertStr x t

/-- Insertion sort on strings (model of `Array.from(set).sort()`). -/
def sortStr : List String → List String
  | [] => []
  | x :: xs => insertStr x (sortStr xs)

/-- `getAllTools` of `lib/data.ts`: collect every mentioned tool of every
analyzed episode (no per-value truthiness check), then sort. -/
def getAllTools (episodes : List Episode) : List String :=
  sortStr (episodes.foldl (fun acc ep =>
    match ep.analysis with
    | some a => a.tools_mentioned.foldl setAdd acc
    | none => acc) [])

/-- `getAllCategories` of `lib/data.ts`: collect the truthy categories
(`if (uc.category) cats.add(uc.category)`), then sort. -/
def getAllCategories (useCases : List UseCaseFlat) : List String :=
  sortStr (useCases.foldl (fun acc uc =>
    if uc.category == "" then acc else setAdd acc uc.category) [])

/-- `getAllAudiences` of `lib/data.ts`: collect the truthy audiences, then
sort. -/
def getAllAudiences (useCases : List UseCaseFlat) : List String :=
  sortStr (useCases.foldl (fun acc uc =>
    if uc.audience == "" then acc else setAdd acc uc.audience) [])

/-! ### Catalog loading (`lib/data.ts` lines 13-36) -/

/-- Parsed JSON values, the output of `JSON.parse`. -/
inductive Json where
  | null : Json
  | bool : Bool → Json
  | num : Int → Json
  | str : String → Json
  | arr : List Json → Json
  | obj : List (String × Json) → Json

/-- Field lookup in a parsed JSON object. -/
def jGet (fields : List (String × Json)) (k : String) : Option Json :=
  (fields.find? (fun p => p.1 == k)).map (fun p => p.2)

/-- Test that an object field is present and holds a string. -/
def isStrField (fields : List (String × Json)) (k : String) : Bool :=
  match jGet fields k with
  | some (Json.str _) => true
  | _ => false

/-- Test that an object field is present and holds a number. -/
def isNumField (fields : List (String × Json)) (k : String) : Bool :=
  match jGet fields k with
  | some (Json.num _) => true
  | _ => false

/-- Modelled from the spec: a well-formed Container must carry the required
scalar fields `id`, `title`, `publish_date`, `duration`, `thumbnail_url`
and `source_url` (section 3 of the spec); this validation predicate has no
counterpart in the source, which performs no field validation. -/
def specWellFormedContainer (j : Json) : Bool :=
  match j with
  | Json.obj fs =>
      isStrField fs "id" && isStrField fs "title" &&
        isStrField fs "publish_date" && isNumField fs "duration" &&
        isStrField fs "thumbnail_url" && isStrField fs "source_url"
  | _ => false

/-- Modelled from the spec: a well-formed UseCase record must carry the
required scalar fields `title`, `description`, `category`, `audience` and
`difficulty`; the source performs no such validation. -/
def specWellFormedUseCase (j : Json) : Bool :=
  match j with
  | Json.obj fs =>
      isStrField fs "title" && isStrField fs "description" &&
        isStrField fs "category" && isStrField fs "audience" &&
        isStrField fs "difficulty"
  | _ => false

/-- `getEpisodes` of `lib/data.ts` over already-parsed file contents: the
analyzed file if present, else the raw file, else an empty list; the
parsed value is returned as-is, with no validation of any field. -/
def getEpisodesModel (analyzed raw : Option Json) : Json :=
  match analyzed with
  | some j => j
  | none =>
      match raw with
      | some j => j
      | none => Json.arr []

/-- `getUseCases` of `lib/data.ts` over already-parsed file contents: the
parsed value as-is if the file exists, else an empty list; no validation. -/
def getUseCasesModel (file : Option Json) : Json :=
  match file with
  | some j => j
  | none => Json.arr []

/-- Invariant of the grouping fold: after processing the records
`processed`, the accumulator has pairwise-distinct keys listed in order of
strictly increasing first occurrence, each entry holds exactly the
processed records of its key in catalog order, every processed record's
key is present, and every key does occur among the processed records. -/
def GroupsInv (processed : List UseCaseFlat)
    (acc : List (String × List UseCaseFlat)) : Prop :=
  (acc.map Prod.fst).Nodup ∧
  (∀ p ∈ acc, p.2 = processed.filter (fun r => catKey r == p.1)) ∧
  (∀ r ∈ processed, catKey r ∈ acc.map Prod.fst) ∧
  (acc.map Prod.fst).Pairwise
    (fun k1 k2 => fIdxAux k1 processed < fIdxAux k2 processed) ∧
  (∀ k ∈ acc.map Prod.fst, fIdxAux k processed < processed.length)

/-! ### Concrete records used by witnesses and counterexamples -/

/-- Concrete record: title only, wildcard audience. -/
def rec0 : UseCaseFlat :=
  { title := "alpha", one_liner := none, description := "", tools := [],
    category := "", audience := "everyone", difficulty := "beginner",
    timestamp_seconds := none, intents := [], is_pick := false,
    pick_reason := none, episode_id := "e1", episode_title := "",
    episode_url := none, guest_name := none, guest_role := none,
    publish_date := "" }

/-- Concrete record: coding category, engineer audience, a pick. -/
def rec1 : UseCaseFlat :=
  { title := "beta", one_liner := none, description := "", tools := ["python"],
    category := "coding", audience := "engineer", difficulty := "advanced",
    timestamp_seconds := none, intents := ["automate"], is_pick := true,
    pick_reason := some "neat", episode_id := "e2", episode_title := "",
    episode_url := none, guest_name := none, guest_role := none,
    publish_date := "" }

/-- Concrete record: writing category, wildcard audience. -/
def rec2 : UseCaseFlat :=
  { title := "gamma", one_liner := none, description := "", tools := [],
    category := "writing", audience := "everyone", difficulty := "beginner",
    timestamp_seconds := none, intents := [], is_pick := false,
    pick_reason := none, episode_id := "e3", episode_title := "",
    episode_url := none, guest_name := none, guest_role := none,
    publish_date := "" }

/-- Concrete episode whose analysis mentions an empty-string tool. -/
def ep0 : Episode :=
  { id := "e0", title := "t", description := "", publish_date := "20250101",
    duration_seconds := 60, thumbnail_url := "", url := "",
    transcript := none,
    analysis := some
      { guest_name := none, guest_role := none, summary := none,
        key_takeaways := [], use_cases := [], tools_mentioned := [""],
        notable_quotes := [] } }

/-! ### Theorems -/

/-- C5: with page size 6 (the default `CARDS_PER_CATEGORY`), the collapsed
window is exactly the first `min 6 |group|` members of the group in order,
and the expanded window is the whole group in order. -/
theorem window_spec (group : List UseCaseFlat) :
    window group true CARDS_PER_CATEGORY = group ∧
    window group false CARDS_PER_CATEGORY = group.take 6 ∧
    (window group false CARDS_PER_CATEGORY).length = min 6 group.length ∧
    CARDS_PER_CATEGORY = 6 := by
  refine ⟨?_, rfl, ?_, rfl⟩
  · simp [window]
  · simp [window, CARDS_PER_CATEGORY]

/-- Instantiation of `window_spec` on a concrete two-element group. -/
theorem window_spec_witness :
    window [rec0, rec1] true CARDS_PER_CATEGORY = [rec0, rec1] ∧
    (window [rec0, rec1] false CARDS_PER_CATEGORY).length =
      min 6 [rec0, rec1].length :=
  ⟨(window_spec [rec0, rec1]).1, (window_spec [rec0, rec1]).2.2.1⟩

/-- C6: the sampler draws an element of the pool when the pool is
non-empty (a singleton pool always yields its element), falls back to the
full catalog when the pool is empty, and yields no record (the
empty-catalog failure) exactly when both the pool and the catalog are
empty. -/
theorem sample_spec (f u : List UseCaseFlat) (i : Nat)
    (hi : i < (samplePool f u).length ∨
      ((samplePool f u).length = 0 ∧ i = 0)) :
    (f ≠ [] → ∃ r ∈ f, sample f u i = some r) ∧
    (f = [] → u ≠ [] → ∃ r ∈ u, sample f u i = some r) ∧
    ((sample f u i).isNone ↔ (f = [] ∧ u = [])) ∧
    (∀ r, f = [r] → sample f u i = some r) := by
  have hpool : samplePool f u = if f.length > 0 then f else u := rfl
  refine ⟨?_, ?_, ?_, ?_⟩
  · intro hf
    have hfl : f.length > 0 := List.length_pos.mpr hf
    have hp : samplePool f u = f := by simp [samplePool, hfl]
    rcases hi with hi | ⟨h0, _⟩
    · rw [hp] at hi
      rcases List.get?_eq_get (l := f) (n := i) hi with hg
      exact ⟨f.get ⟨i, hi⟩, f.get_mem i hi, by simp [sample, hp, hg]⟩
    · rw [hp] at h0
      exact absurd h0 (Nat.pos_iff_ne_zero.mp hfl)
  · intro hf hu
    have hp : samplePool f u = u := by simp [samplePool, hf]
    have hul : u.length > 0 := List.length_pos.mpr hu
    rcases hi with hi | ⟨h0, _⟩
    · rw [hp] at hi
      rcases List.get?_eq_get (l := u) (n := i) hi with hg
      exact ⟨u.get ⟨i, hi⟩, u.get_mem i hi, by simp [sample, hp, hg]⟩
    · rw [hp] at h0
      exact absurd h0 (Nat.pos_iff_ne_zero.mp hul)
  · constructor
    · intro hnone
      by_contra hcon
      have hne : samplePool f u ≠ [] := by
        by_cases hf : f = []
        · have hu : u ≠ [] := fun hu => hcon ⟨hf, hu⟩

          simp [samplePool, hf, hu]
        · simp [samplePool, List.length_pos.mpr hf, hf]
      have hlen : 0 < (samplePool f u).length := List.length_pos.mpr hne
      rcases hi with hi | ⟨h0, _⟩
      · have hsome : sample f u i =
            some ((samplePool f u).get ⟨i, hi⟩) :=
          List.get?_eq_get (l := samplePool f u) (n := i) hi
        rw [hsome] at hnone
        simp at hnone
      · omega
    · rintro ⟨hf, hu⟩
      simp [sample, samplePool, hf, hu]
  · intro r hf
    subst hf
    have hp : samplePool [r] u = [r] := by simp [samplePool]
    rcases hi with hi | ⟨h0, _⟩
    · rw [hp] at hi
      simp at hi
      subst hi
      simp [sample, hp]
    · rw [hp] at h0
      simp at h0

/-- Instantiation of `sample_spec`: a singleton pool yields its element. -/
theorem sample_spec_witness :
    (0 < (samplePool [rec1] []).length ∨
      ((samplePool [rec1] []).length = 0 ∧ 0 = 0)) ∧
    sample [rec1] [] 0 = some rec1 := by
  have hi : 0 < (samplePool [rec1] []).length ∨
      ((samplePool [rec1] []).length = 0 ∧ 0 = 0) := by
    left; simp [samplePool]
  exact ⟨hi, (sample_spec [rec1] [] 0 hi).2.2.2 rec1 rfl⟩

/-! ### Query evaluator lemmas -/

/-- Lowercasing preserves emptiness of a string. -/
theorem strToLower_empty_iff (s : String) : strToLower s = "" ↔ s = "" := by
  constructor
  · intro h
    have hd : s.data.map Char.toLower = [] := String.ext_iff.mp h
    exact String.ext_iff.mpr (List.map_eq_nil_iff.mp hd)
  · intro h
    rw [h]
    rfl

/-- Characterization of the role criterion. -/
theorem rolePass_iff (sel : Option String) (uc : UseCaseFlat) :
    rolePass sel uc = true ↔
      ∀ role, sel = some role → role ≠ "" →
        (uc.audience = role ∨ uc.audience = "everyone") := by
  cases sel with
  | none => simp [rolePass]
  | some role =>
    by_cases h : role = ""
    · subst h
      simp [rolePass]
    · simp [rolePass, h]

/-- Characterization of the intent criterion. -/
theorem intentPass_iff (sel : Option String) (uc : UseCaseFlat) :
    intentPass sel uc = true ↔
      ∀ it, sel = some it → it ≠ "" → it ∈ uc.intents := by
  cases sel with
  | none => simp [intentPass]
  | some it =>
    by_cases h : it = ""
    · subst h
      simp [intentPass]
    · simp [intentPass, h]

/-- Characterization of the home-view free-text criterion. -/
theorem searchPassHome_iff (search : String) (uc : UseCaseFlat) :
    searchPassHome search uc = true ↔
      (search ≠ "" →
        strIncludes (searchableHome uc) (strToLower search) = true) := by
  by_cases h : search = ""
  · subst h
    have h0 : strToLower "" = "" := rfl
    simp [searchPassHome, h0]
  · have h2 : strToLower search ≠ "" :=
      fun hc => h ((strToLower_empty_iff search).mp hc)
    simp [searchPassHome, h, h2]

/-- Characterization of the use-cases-view free-text criterion. -/
theorem searchPassUC_iff (search : String) (uc : UseCaseFlat) :
    searchPassUC search uc = true ↔
      (search ≠ "" →
        strIncludes (searchableUC uc) (strToLower search) = true) := by
  by_cases h : search = ""
  · subst h
    have h0 : strToLower "" = "" := rfl
    simp [searchPassUC, h0]
  · have h2 : strToLower search ≠ "" :=
      fun hc => h ((strToLower_empty_iff search).mp hc)
    simp [searchPassUC, h, h2]

/-- Characterization of a multi-value facet criterion: an empty selection
imposes no constraint; a non-empty one requires some selected value to
match. -/
theorem facetPass_iff (sel : List String) (v : String) :
    facetPass sel v = true ↔ (sel ≠ [] → ∃ c ∈ sel, c = v) := by
  cases sel with
  | nil => simp [facetPass]
  | cons a t => simp [facetPass]

/-- Characterization of the `HomeClient` record predicate. -/
theorem homeMatches_iff (q : HomeQuery) (uc : UseCaseFlat) :
    homeMatches q uc = true ↔
      ((∀ role, q.selectedRole = some role → role ≠ "" →
          (uc.audience = role ∨ uc.audience = "everyone")) ∧
       (∀ it, q.selectedIntent = some it → it ≠ "" → it ∈ uc.intents) ∧
       (q.search ≠ "" →
          strIncludes (searchableHome uc) (strToLower q.search) = true)) := by
  unfold homeMatches
  rw [Bool.and_eq_true, Bool.and_eq_true, rolePass_iff, intentPass_iff,
    searchPassHome_iff, and_assoc]

/-- Characterization of the `UseCasesClient` record predicate. -/
theorem ucMatches_iff (q : UCQuery) (uc : UseCaseFlat) :
    ucMatches q uc = true ↔
      ((q.search ≠ "" →
          strIncludes (searchableUC uc) (strToLower q.search) = true) ∧
       (q.selectedCategories ≠ [] →
          ∃ c ∈ q.selectedCategories, c = uc.category) ∧
       (q.selectedDifficulties ≠ [] →
          ∃ d ∈ q.selectedDifficulties, d = uc.difficulty) ∧
       (∀ role, q.selectedRole = some role → role ≠ "" →
          (uc.audience = role ∨ uc.audience = "everyone"))) := by
  unfold ucMatches
  rw [Bool.and_eq_true, Bool.and_eq_true, Bool.and_eq_true,
    searchPassUC_iff, facetPass_iff, facetPass_iff, rolePass_iff,
    and_assoc, and_assoc]

/-- C1: the evaluators are sound and complete — a record is in the
filtered result iff it is in the catalog and satisfies every active
criterion; criteria combine by AND across facets, by OR within a
multi-value facet, and an empty selection imposes no constraint. -/
theorem evaluate_sound_complete (useCases : List UseCaseFlat)
    (qh : HomeQuery) (qu : UCQuery) (r : UseCaseFlat) :
    (r ∈ homeFiltered useCases qh ↔
      (r ∈ useCases ∧
       (∀ role, qh.selectedRole = some role → role ≠ "" →
          (r.audience = role ∨ r.audience = "everyone")) ∧
       (∀ it, qh.selectedIntent = some it → it ≠ "" → it ∈ r.intents) ∧
       (qh.search ≠ "" →
          strIncludes (searchableHome r) (strToLower qh.search) = true))) ∧
    (r ∈ ucFiltered useCases qu ↔
      (r ∈ useCases ∧
       (qu.search ≠ "" →
          strIncludes (searchableUC r) (strToLower qu.search) = true) ∧
       (qu.selectedCategories ≠ [] →
          ∃ c ∈ qu.selectedCategories, c = r.category) ∧
       (qu.selectedDifficulties ≠ [] →
          ∃ d ∈ qu.selectedDifficulties, d = r.difficulty) ∧
       (∀ role, qu.selectedRole = some role → role ≠ "" →
          (r.audience = role ∨ r.audience = "everyone")))) := by
  constructor
  · rw [show homeFiltered useCases qh = useCases.filter (homeMatches qh)
      from rfl, List.mem_filter, homeMatches_iff]
  · rw [show ucFiltered useCases qu = useCases.filter (ucMatches qu)
      from rfl, List.mem_filter, ucMatches_iff]

/-- Instantiation of `evaluate_sound_complete` on a concrete catalog with
an all-empty query. -/
theorem evaluate_sound_complete_witness :
    rec0 ∈ homeFiltered [rec0]
      { search := "", selectedRole := none, selectedIntent := none } ∧
    rec0 ∈ ucFiltered [rec0]
      { search := "", selectedRole := none, selectedCategories := [],
        selectedDifficulties := [] } := by
  constructor
  · exact (evaluate_sound_complete [rec0]
      { search := "", selectedRole := none, selectedIntent := none }
      { search := "", selectedRole := none, selectedCategories := [],
        selectedDifficulties := [] } rec0).1.mpr
      ⟨by simp, by simp, by simp, by simp⟩
  · exact (evaluate_sound_complete [rec0]
      { search := "", selectedRole := none, selectedIntent := none }
      { search := "", selectedRole := none, selectedCategories := [],
        selectedDifficulties := [] } rec0).2.mpr
      ⟨by simp, by simp, by simp, by simp, by simp⟩

/-- C2 counterexample: with the search term `"alpha "` (trailing space) and
a record titled `"alpha"`, the trimmed lowercased term is a substring of
the joined search surface, yet the code rejects the record — the code never
trims the search term. -/
theorem search_trim_counterexample :
    strIncludes (searchableHome rec0) (strToLower (strTrim "alpha ")) = true ∧
    homeMatches
      { search := "alpha ", selectedRole := none, selectedIntent := none }
      rec0 = false ∧
    rec0 ∉ homeFiltered [rec0]
      { search := "alpha ", selectedRole := none, selectedIntent := none } := by
  refine ⟨by decide, by decide, ?_⟩
  intro hmem
  have h := (List.mem_filter.mp hmem).2
  have hfalse : homeMatches
      { search := "alpha ", selectedRole := none, selectedIntent := none }
      rec0 = false := by decide
  rw [hfalse] at h
  cases h

/-- C2 as amended: a record passes the free-text criterion iff the
lowercased (untrimmed) search term is a substring of the lowercased
space-joined surface built from title, one-liner, description, guest name,
episode title, each tool and category; an empty term imposes no
constraint. -/
theorem search_criterion (useCases : List UseCaseFlat) (search : String)
    (r : UseCaseFlat) :
    r ∈ homeFiltered useCases
      { search := search, selectedRole := none, selectedIntent := none } ↔
      (r ∈ useCases ∧
        (search ≠ "" →
          strIncludes (searchableHome r) (strToLower search) = true)) := by
  rw [show homeFiltered useCases
      { search := search, selectedRole := none, selectedIntent := none } =
      useCases.filter (homeMatches
        { search := search, selectedRole := none, selectedIntent := none })
      from rfl, List.mem_filter, homeMatches_iff]
  simp

/-- Instantiation of `search_criterion`: the record titled `"alpha"` is
found by the search term `"Alpha"`. -/
theorem search_criterion_witness :
    rec0 ∈ homeFiltered [rec0]
      { search := "Alpha", selectedRole := none, selectedIntent := none } :=
  (search_criterion [rec0] "Alpha" rec0).mpr
    ⟨by decide, fun _ => by decide⟩

/-- C3: a record whose audience is the wildcard `"everyone"` passes every
non-empty role selection and the no-selection query alike; a record passes
the role criterion iff its audience equals the selected role or the
wildcard. -/
theorem role_wildcard (useCases : List UseCaseFlat) (r : UseCaseFlat)
    (role : String) (hrole : role ≠ "") (hr : r ∈ useCases) :
    (r.audience = "everyone" →
      r ∈ homeFiltered useCases
        { search := "", selectedRole := some role, selectedIntent := none } ∧
      r ∈ homeFiltered useCases
        { search := "", selectedRole := none, selectedIntent := none }) ∧
    (homeMatches
        { search := "", selectedRole := some role, selectedIntent := none }
        r = true ↔
      (r.audience = role ∨ r.audience = "everyone")) := by
  constructor
  · intro hev
    constructor
    · exact List.mem_filter.mpr ⟨hr, (homeMatches_iff _ _).mpr
        ⟨fun ro hro _ => Or.inr hev, by simp, by simp⟩⟩
    · exact List.mem_filter.mpr ⟨hr, (homeMatches_iff _ _).mpr
        ⟨by simp, by simp, by simp⟩⟩
  · rw [homeMatches_iff]
    constructor
    · intro h
      exact h.1 role rfl hrole
    · intro h
      exact ⟨fun ro hro _ => by
        rw [Option.some.injEq] at hro
        rw [← hro]
        exact h, by simp, by simp⟩

/-- Instantiation of `role_wildcard`: the wildcard record appears for the
role `"designer"`. -/
theorem role_wildcard_witness :
    rec0 ∈ homeFiltered [rec0]
      { search := "", selectedRole := some "designer",
        selectedIntent := none } :=
  ((role_wildcard [rec0] rec0 "designer" (by decide) (by decide)).1
    (by decide)).1

/-- C8: the picks view is the `is_pick` subsequence of the already
filtered result; restricting to picks commutes with query evaluation, no
record excluded by the query appears among the picks, and every pick of
the filtered result appears. -/
theorem picks_respect_query (useCases : List UseCaseFlat) (q : HomeQuery) :
    filteredPicks useCases q =
      (homeFiltered useCases q).filter (fun r => r.is_pick) ∧
    filteredPicks useCases q = (picks useCases).filter (homeMatches q) ∧
    (∀ r ∈ filteredPicks useCases q,
      r ∈ useCases ∧ homeMatches q r = true ∧ r.is_pick = true) ∧
    (∀ r ∈ homeFiltered useCases q,
      r.is_pick = true → r ∈ filteredPicks useCases q) := by
  refine ⟨rfl, ?_, ?_, ?_⟩
  · show (useCases.filter (homeMatches q)).filter (fun r => r.is_pick) =
      (useCases.filter (fun r => r.is_pick)).filter (homeMatches q)
    rw [List.filter_filter, List.filter_filter]
    congr 1
    funext a
    exact Bool.and_comm _ _
  · intro r hrp
    have h1 := List.mem_filter.mp hrp
    have h2 := List.mem_filter.mp h1.1
    exact ⟨h2.1, h2.2, h1.2⟩
  · intro r hrf hp
    exact List.mem_filter.mpr ⟨hrf, hp⟩

/-- Instantiation of `picks_respect_query`: the pick `rec1` survives an
empty query into the filtered picks view. -/
theorem picks_respect_query_witness :
    rec1 ∈ filteredPicks [rec0, rec1]
      { search := "", selectedRole := none, selectedIntent := none } :=
  (picks_respect_query [rec0, rec1]
    { search := "", selectedRole := none, selectedIntent := none }).2.2.2
    rec1 (by decide) (by decide)

/-! ### Facet value set lemmas -/

/-- Membership in the JS-set insertion model. -/
theorem mem_setAdd (l : List String) (s y : String) :
    y ∈ setAdd l s ↔ y ∈ l ∨ y = s := by
  by_cases h : l.contains s
  · have hs : s ∈ l := by simpa using h
    simp only [setAdd, h, if_true]
    constructor
    · exact Or.inl
    · rintro (hy | rfl)
      · exact hy
      · exact hs
  · have hs : s ∉ l := by simpa using h
    simp [setAdd, hs]

/-- Membership after folding a list of values into the set. -/
theorem mem_foldl_setAdd (l acc : List String) (y : String) :
    y ∈ l.foldl setAdd acc ↔ y ∈ acc ∨ y ∈ l := by
  induction l generalizing acc with
  | nil => simp
  | cons a t ih =>
    rw [List.foldl_cons, ih, mem_setAdd]
    simp
    tauto

/-- Membership is preserved by the string insertion step. -/
theorem mem_insertStr (x y : String) (l : List String) :
    y ∈ insertStr x l ↔ y = x ∨ y ∈ l := by
  induction l with
  | nil => simp [insertStr]
  | cons h t ih =>
    by_cases hc : compare x h ≠ Ordering.gt
    · simp [insertStr, hc]
    · simp [insertStr, hc, ih]
      tauto

/-- Sorting the facet list preserves membership. -/
theorem mem_sortStr (y : String) (l : List String) :
    y ∈ sortStr l ↔ y ∈ l := by
  induction l with
  | nil => simp [sortStr]
  | cons x t ih => simp [sortStr, mem_insertStr, ih]

/-- Membership in the tools fold of `getAllTools`. -/
theorem mem_toolsFold (episodes : List Episode) (acc : List String)
    (y : String) :
    y ∈ episodes.foldl (fun acc ep =>
      match ep.analysis with
      | some a => a.tools_mentioned.foldl setAdd acc
      | none => acc) acc ↔
    (y ∈ acc ∨ ∃ ep ∈ episodes, ∃ a, ep.analysis = some a ∧
      y ∈ a.tools_mentioned) := by
  induction episodes generalizing acc with
  | nil => simp
  | cons e t ih =>
    rw [List.foldl_cons, ih]
    cases he : e.analysis with
    | none => simp [he]
    | some a =>
      simp [he, mem_foldl_setAdd]
      tauto

/-- Membership in the categories fold of `getAllCategories`. -/
theorem mem_catsFold (useCases : List UseCaseFlat) (acc : List String)
    (y : String) :
    y ∈ useCases.foldl (fun acc uc =>
      if uc.category == "" then acc else setAdd acc uc.category) acc ↔
    (y ∈ acc ∨ (y ≠ "" ∧ ∃ uc ∈ useCases, uc.category = y)) := by
  induction useCases generalizing acc with
  | nil => simp
  | cons u t ih =>
    rw [List.foldl_cons, ih]
    by_cases hu : u.category = ""
    · simp only [hu, beq_self_eq_true, if_true]
      constructor
      · rintro (hy | ⟨hne, uc, huc, hcat⟩)
        · exact Or.inl hy
        · exact Or.inr ⟨hne, uc, List.mem_cons_of_mem u huc, hcat⟩
      · rintro (hy | ⟨hne, uc, huc, hcat⟩)
        · exact Or.inl hy
        · rcases List.mem_cons.mp huc with rfl | huc
          · exact absurd (hu ▸ hcat) hne.symm
          · exact Or.inr ⟨hne, uc, huc, hcat⟩
    · have hb : (u.category == "") = false := by simp [hu]
      simp only [hb, Bool.false_eq_true, if_false, mem_setAdd]
      constructor
      · rintro ((hy | rfl) | ⟨hne, uc, huc, hcat⟩)
        · exact Or.inl hy
        · exact Or.inr ⟨fun h => hu h,
            u, List.mem_cons_self u t, rfl⟩
        · exact Or.inr ⟨hne, uc, List.mem_cons_of_mem u huc, hcat⟩
      · rintro (hy | ⟨hne, uc, huc, hcat⟩)
        · exact Or.inl (Or.inl hy)
        · rcases List.mem_cons.mp huc with rfl | huc
          · exact Or.inl (Or.inr hcat.symm)
          · exact Or.inr ⟨hne, uc, huc, hcat⟩

/-- Membership in the audiences fold of `getAllAudiences`. -/
theorem mem_audsFold (useCases : List UseCaseFlat) (acc : List String)
    (y : String) :
    y ∈ useCases.foldl (fun acc uc =>
      if uc.audience == "" then acc else setAdd acc uc.audience) acc ↔
    (y ∈ acc ∨ (y ≠ "" ∧ ∃ uc ∈ useCases, uc.audience = y)) := by
  induction useCases generalizing acc with
  | nil => simp
  | cons u t ih =>
    rw [List.foldl_cons, ih]
    by_cases hu : u.audience = ""
    · simp only [hu, beq_self_eq_true, if_true]
      constructor
      · rintro (hy | ⟨hne, uc, huc, hcat⟩)
        · exact Or.inl hy
        · exact Or.inr ⟨hne, uc, List.mem_cons_of_mem u huc, hcat⟩
      · rintro (hy | ⟨hne, uc, huc, hcat⟩)
        · exact Or.inl hy
        · rcases List.mem_cons.mp huc with rfl | huc
          · exact absurd (hu ▸ hcat) hne.symm
          · exact Or.inr ⟨hne, uc, huc, hcat⟩
    · have hb : (u.audience == "") = false := by simp [hu]
      simp only [hb, Bool.false_eq_true, if_false, mem_setAdd]
      constructor
      · rintro ((hy | rfl) | ⟨hne, uc, huc, hcat⟩)
        · exact Or.inl hy
        · exact Or.inr ⟨fun h => hu h,
            u, List.mem_cons_self u t, rfl⟩
        · exact Or.inr ⟨hne, uc, List.mem_cons_of_mem u huc, hcat⟩
      · rintro (hy | ⟨hne, uc, huc, hcat⟩)
        · exact Or.inl (Or.inl hy)
        · rcases List.mem_cons.mp huc with rfl | huc
          · exact Or.inl (Or.inr hcat.symm)
          · exact Or.inr ⟨hne, uc, huc, hcat⟩

/-- C9 counterexample: an episode whose analysis mentions an empty-string
tool puts the empty string into the derived tools facet set —
`getAllTools` filters no individual value. -/
theorem facet_empty_counterexample :
    (ep0.analysis.map (fun a => a.tools_mentioned) = some [""]) ∧
    "" ∈ getAllTools [ep0] := by
  constructor
  · rfl
  · decide

/-- C9 as amended: the category and audience facet sets contain exactly
the non-empty values occurring in the catalog (so they exclude empty
values), while the tools facet set contains every mentioned tool verbatim,
empty strings included. -/
theorem facet_values (useCases : List UseCaseFlat)
    (episodes : List Episode) (s : String) :
    (s ∈ getAllCategories useCases ↔
      (s ≠ "" ∧ ∃ uc ∈ useCases, uc.category = s)) ∧
    (s ∈ getAllAudiences useCases ↔
      (s ≠ "" ∧ ∃ uc ∈ useCases, uc.audience = s)) ∧
    (s ∈ getAllTools episodes ↔
      ∃ ep ∈ episodes, ∃ a, ep.analysis = some a ∧
        s ∈ a.tools_mentioned) := by
  refine ⟨?_, ?_, ?_⟩
  · rw [getAllCategories, mem_sortStr, mem_catsFold]
    simp
  · rw [getAllAudiences, mem_sortStr, mem_audsFold]
    simp
  · rw [getAllTools, mem_sortStr, mem_toolsFold]
    simp

/-- Instantiation of `facet_values` on concrete data. -/
theorem facet_values_witness :
    "coding" ∈ getAllCategories [rec1] ∧ "" ∈ getAllTools [ep0] := by
  constructor
  · exact (facet_values [rec1] [ep0] "coding").1.mpr
      ⟨by decide, rec1, by simp, by decide⟩
  · exact (facet_values [rec1] [ep0] "").2.2.mpr
      ⟨ep0, by simp, _, rfl, by decide⟩

/-! ### Grouping lemmas -/

/-- The first-occurrence index is stable under appending when the key is
found in the first part. -/
theorem fIdxAux_append_of_found (k : String) (l1 l2 : List UseCaseFlat)
    (h : fIdxAux k l1 < l1.length) :
    fIdxAux k (l1 ++ l2) = fIdxAux k l1 := by
  induction l1 with
  | nil => simp [fIdxAux] at h
  | cons r t ih =>
    by_cases hr : catKey r = k
    · simp [fIdxAux, hr]
    · have hb : (catKey r == k) = false := by simp [hr]
      have h' : fIdxAux k t < t.length := by
        simp only [fIdxAux, hb, Bool.false_eq_true, if_false,
          List.length_cons] at h
        omega
      calc fIdxAux k ((r :: t) ++ l2) = fIdxAux k (t ++ l2) + 1 := by
            rw [List.cons_append]
            simp [fIdxAux, hb]
        _ = fIdxAux k t + 1 := by rw [ih h']
        _ = fIdxAux k (r :: t) := by simp [fIdxAux, hb]

/-- The first-occurrence index skips a prefix containing no occurrence. -/
theorem fIdxAux_append_of_none (k : String) (l1 l2 : List UseCaseFlat)
    (h : ∀ r ∈ l1, catKey r ≠ k) :
    fIdxAux k (l1 ++ l2) = l1.length + fIdxAux k l2 := by
  induction l1 with
  | nil => simp
  | cons r t ih =>
    have hb : (catKey r == k) = false := by
      simp [h r (List.mem_cons_self r t)]
    calc fIdxAux k ((r :: t) ++ l2) = fIdxAux k (t ++ l2) + 1 := by
          rw [List.cons_append]
          simp [fIdxAux, hb]
      _ = (t.length + fIdxAux k l2) + 1 := by
          rw [ih (fun x hx => h x (List.mem_cons_of_mem r hx))]
      _ = (r :: t).length + fIdxAux k l2 := by
          rw [List.length_cons]
          omega

/-- Adding a record under an existing key leaves the key list unchanged. -/
theorem addToGroups_keys_of_mem (acc : List (String × List UseCaseFlat))
    (k : String) (r : UseCaseFlat) (h : k ∈ acc.map Prod.fst) :
    (addToGroups acc k r).map Prod.fst = acc.map Prod.fst := by
  induction acc with
  | nil => simp at h
  | cons p t ih =>
    obtain ⟨k', v⟩ := p
    by_cases hp : k' = k
    · simp [addToGroups, hp]
    · have hb : (k' == k) = false := by simp [hp]
      have hk : k ∈ t.map Prod.fst := by
        rw [List.map_cons] at h
        rcases List.mem_cons.mp h with h1 | h1
        · exact absurd h1.symm hp
        · exact h1
      simp [addToGroups, hb, ih hk]

/-- Adding a record under a fresh key appends a new singleton entry. -/
theorem addToGroups_of_not_mem (acc : List (String × List UseCaseFlat))
    (k : String) (r : UseCaseFlat) (h : k ∉ acc.map Prod.fst) :
    addToGroups acc k r = acc ++ [(k, [r])] := by
  induction acc with
  | nil => simp [addToGroups]
  | cons p t ih =>
    obtain ⟨k', v⟩ := p
    have hp : k' ≠ k := by
      intro hc
      exact h (by simp [hc])
    have hb : (k' == k) = false := by simp [hp]
    have ht : k ∉ t.map Prod.fst := by
      intro hc
      exact h (by simp [hc])
    simp [addToGroups, hb, ih ht]

/-- Entries whose key differs from `k` are fixed by the pointwise update. -/
theorem map_ite_id (t : List (String × List UseCaseFlat)) (k : String)
    (r : UseCaseFlat) (h : ∀ p ∈ t, p.1 ≠ k) :
    t.map (fun p => if p.1 == k then (p.1, p.2 ++ [r]) else p) = t := by
  induction t with
  | nil => simp
  | cons p t ih =>
    have hb : (p.1 == k) = false := by simp [h p (List.mem_cons_self p t)]
    rw [List.map_cons, ih (fun x hx => h x (List.mem_cons_of_mem p hx))]
    simp [hb]

/-- With pairwise-distinct keys, adding under an existing key is the
pointwise update of the matching entry. -/
theorem addToGroups_map_of_mem (acc : List (String × List UseCaseFlat))
    (k : String) (r : UseCaseFlat) (hnd : (acc.map Prod.fst).Nodup)
    (h : k ∈ acc.map Prod.fst) :
    addToGroups acc k r =
      acc.map (fun p => if p.1 == k then (p.1, p.2 ++ [r]) else p) := by
  induction acc with
  | nil => simp at h
  | cons p t ih =>
    obtain ⟨k', v⟩ := p
    have hnd' : k' ∉ t.map Prod.fst ∧ (t.map Prod.fst).Nodup := by
      rw [List.map_cons, List.nodup_cons] at hnd
      exact hnd
    by_cases hp : k' = k
    · subst hp
      have hnone : ∀ q ∈ t, q.1 ≠ k' := by
        intro q hq hc
        exact hnd'.1 (hc ▸ List.mem_map_of_mem Prod.fst hq)
      rw [show addToGroups ((k', v) :: t) k' r = (k', v ++ [r]) :: t by
        simp [addToGroups]]
      rw [List.map_cons, map_ite_id t k' r hnone]
      simp
    · have hb : (k' == k) = false := by simp [hp]
      have hk : k ∈ t.map Prod.fst := by
        rw [List.map_cons] at h
        rcases List.mem_cons.mp h with h1 | h1
        · exact absurd h1.symm hp
        · exact h1
      simp [addToGroups, hb, hp, ih hnd'.2 hk]

/-- One step of the grouping fold preserves the invariant. -/
theorem groupsInv_step (processed : List UseCaseFlat)
    (acc : List (String × List UseCaseFlat)) (r : UseCaseFlat)
    (h : GroupsInv processed acc) :
    GroupsInv (processed ++ [r]) (addToGroups acc (catKey r) r) := by
  obtain ⟨hnd, hval, hcov, hpw, hbnd⟩ := h
  have hstab : ∀ k ∈ acc.map Prod.fst,
      fIdxAux k (processed ++ [r]) = fIdxAux k processed :=
    fun k hk' => fIdxAux_append_of_found k processed [r] (hbnd k hk')
  by_cases hk : catKey r ∈ acc.map Prod.fst
  · rw [addToGroups_map_of_mem acc (catKey r) r hnd hk]
    have hkeys : (acc.map (fun p =>
        if p.1 == catKey r then (p.1, p.2 ++ [r]) else p)).map Prod.fst =
        acc.map Prod.fst := by
      rw [List.map_map]
      apply List.map_congr_left
      intro p _
      by_cases hc : p.1 = catKey r
      · simp [hc]
      · simp [hc]
    refine ⟨?_, ?_, ?_, ?_, ?_⟩
    · rw [hkeys]
      exact hnd
    · intro p hp
      obtain ⟨p0, hp0, rfl⟩ := List.mem_map.mp hp
      by_cases hc : p0.1 = catKey r
      · have hcb : (p0.1 == catKey r) = true := by simp [hc]
        simp only [hcb, if_true]
        rw [List.filter_append, ← hval p0 hp0]
        simp [hc]
      · have hcb : (p0.1 == catKey r) = false := by simp [hc]
        simp only [hcb, Bool.false_eq_true, if_false]
        rw [List.filter_append, ← hval p0 hp0]
        have hnil : [r].filter (fun x => catKey x == p0.1) = [] := by
          simp
          exact fun he => hc he.symm
        rw [hnil, List.append_nil]
    · intro x hx
      rw [hkeys]
      rcases List.mem_append.mp hx with hx | hx
      · exact hcov x hx
      · rw [List.mem_singleton.mp hx]
        exact hk
    · rw [hkeys]
      refine List.Pairwise.imp_of_mem ?_ hpw
      intro a b ha hb hab
      rw [hstab a ha, hstab b hb]
      exact hab
    · intro k hk'
      rw [hkeys] at hk'
      rw [hstab k hk', List.length_append]
      have := hbnd k hk'
      simp only [List.length_singleton]
      omega
  · rw [addToGroups_of_not_mem acc (catKey r) r hk]
    have hnone : ∀ r' ∈ processed, catKey r' ≠ catKey r := by
      intro r' hr' heq
      exact hk (heq ▸ hcov r' hr')
    have hfnew : fIdxAux (catKey r) (processed ++ [r]) =
        processed.length := by
      rw [fIdxAux_append_of_none (catKey r) processed [r] hnone]
      simp [fIdxAux]
    have hkeys : (acc ++ [(catKey r, [r])]).map Prod.fst =
        acc.map Prod.fst ++ [catKey r] := by
      rw [List.map_append]
      rfl
    refine ⟨?_, ?_, ?_, ?_, ?_⟩
    · rw [hkeys, List.nodup_append]
      refine ⟨hnd, List.nodup_singleton _, ?_⟩
      intro a ha hb
      rw [List.mem_singleton] at hb
      subst hb
      exact hk ha
    · intro p hp
      rcases List.mem_append.mp hp with hp | hp
      · have hne : p.1 ≠ catKey r := by
          intro hc
          exact hk (hc ▸ List.mem_map_of_mem Prod.fst hp)
        rw [List.filter_append, ← hval p hp]
        have hnil : [r].filter (fun x => catKey x == p.1) = [] := by
          simp
          exact fun he => hne he.symm
        rw [hnil, List.append_nil]
      · obtain rfl := List.mem_singleton.mp hp
        rw [List.filter_append]
        have h1 : processed.filter
            (fun x => catKey x == (catKey r, [r]).1) = [] := by
          rw [List.filter_eq_nil_iff]
          intro a ha
          simp [hnone a ha]
        have h2 : [r].filter (fun x => catKey x == (catKey r, [r]).1) =
            [r] := by simp
        rw [h1, h2, List.nil_append]
    · intro x hx
      rw [hkeys]
      rcases List.mem_append.mp hx with hx | hx
      · exact List.mem_append_left _ (hcov x hx)
      · rw [List.mem_singleton.mp hx]
        exact List.mem_append_right _ (List.mem_singleton_self _)
    · rw [hkeys, List.pairwise_append]
      refine ⟨?_, List.pairwise_singleton _ _, ?_⟩
      · refine List.Pairwise.imp_of_mem ?_ hpw
        intro a b ha hb hab
        rw [hstab a ha, hstab b hb]
        exact hab
      · intro a ha b hb
        rw [List.mem_singleton] at hb
        subst hb
        rw [hstab a ha, hfnew]
        exact hbnd a ha
    · intro k hk'
      rw [hkeys] at hk'
      rcases List.mem_append.mp hk' with hk1 | hk1
      · rw [hstab k hk1, List.length_append]
        have := hbnd k hk1
        simp only [List.length_singleton]
        omega
      · rw [List.mem_singleton.mp hk1, hfnew, List.length_append]
        simp

/-- The grouping fold preserves the invariant along any record list. -/
theorem groupsInv_foldl (l : List UseCaseFlat) :
    ∀ (processed : List UseCaseFlat) (acc : List (String × List UseCaseFlat)),
      GroupsInv processed acc →
      GroupsInv (processed ++ l)
        (l.foldl (fun gs r => addToGroups gs (catKey r) r) acc) := by
  induction l with
  | nil =>
    intro processed acc h
    simpa using h
  | cons r t ih =>
    intro processed acc h
    have h1 := groupsInv_step processed acc r h
    have h2 := ih (processed ++ [r]) _ h1
    rw [List.append_assoc] at h2
    simpa using h2

/-- The invariant holds for the empty state. -/
theorem groupsInv_nil : GroupsInv [] [] := by
  refine ⟨by simp, by simp, by simp, by simp, by simp⟩

/-- The grouping of a record list satisfies the invariant. -/
theorem groupsInv_main (records : List UseCaseFlat) :
    GroupsInv records (groupsOf records) := by
  have h := groupsInv_foldl records [] [] groupsInv_nil
  simpa [groupsOf] using h

/-- Adding a record increases the total group size by one. -/
theorem sum_addToGroups (acc : List (String × List UseCaseFlat))
    (k : String) (r : UseCaseFlat) :
    ((addToGroups acc k r).map (fun p => p.2.length)).sum =
      ((acc.map (fun p => p.2.length)).sum) + 1 := by
  induction acc with
  | nil => simp [addToGroups]
  | cons p t ih =>
    obtain ⟨k', v⟩ := p
    by_cases h : k' = k
    · have hb : (k' == k) = true := by simp [h]
      simp only [addToGroups, hb, if_true, List.map_cons, List.sum_cons,
        List.length_append, List.length_singleton]
      omega
    · have hb : (k' == k) = false := by simp [h]
      simp only [addToGroups, hb, Bool.false_eq_true, if_false,
        List.map_cons, List.sum_cons, ih]
      omega

/-- The group sizes of the raw grouping sum to the number of records. -/
theorem sum_groupsOf (records : List UseCaseFlat) :
    ((groupsOf records).map (fun p => p.2.length)).sum = records.length := by
  suffices h : ∀ (l : List UseCaseFlat)
      (acc : List (String × List UseCaseFlat)),
      (((l.foldl (fun gs r => addToGroups gs (catKey r) r) acc)).map
        (fun p => p.2.length)).sum =
        ((acc.map (fun p => p.2.length)).sum) + l.length by
    simpa [groupsOf] using h records []
  intro l
  induction l with
  | nil =>
    intro acc
    simp
  | cons r t ih =>
    intro acc
    rw [List.foldl_cons, ih, sum_addToGroups, List.length_cons]
    omega

/-- Insertion produces a permutation of consing. -/
theorem perm_insertGroup (x : String × List UseCaseFlat)
    (l : List (String × List UseCaseFlat)) :
    (insertGroup x l).Perm (x :: l) := by
  induction l with
  | nil => exact List.Perm.refl _
  | cons h t ih =>
    by_cases hc : h.2.length ≤ x.2.length
    · rw [show insertGroup x (h :: t) = x :: h :: t by
        simp [insertGroup, hc]]
    · rw [show insertGroup x (h :: t) = h :: insertGroup x t by
        simp [insertGroup, hc]]
      exact (ih.cons h).trans (List.Perm.swap x h t)

/-- Sorting produces a permutation of the input. -/
theorem perm_sortGroups (l : List (String × List UseCaseFlat)) :
    (sortGroups l).Perm l := by
  induction l with
  | nil => exact List.Perm.refl _
  | cons x xs ih =>
    rw [show sortGroups (x :: xs) = insertGroup x (sortGroups xs) from rfl]
    exact (perm_insertGroup x (sortGroups xs)).trans (ih.cons x)

/-- Membership after insertion. -/
theorem mem_insertGroup (y x : String × List UseCaseFlat)
    (l : List (String × List UseCaseFlat)) :
    y ∈ insertGroup x l ↔ y = x ∨ y ∈ l := by
  rw [(perm_insertGroup x l).mem_iff]
  simp

/-- Stable insertion preserves the descending order with first-occurrence
tie-break, provided the inserted group breaks ties after every present
group of equal size. -/
theorem pairwise_insertGroup (records : List UseCaseFlat)
    (x : String × List UseCaseFlat)
    (l : List (String × List UseCaseFlat))
    (hl : l.Pairwise (fun a b => b.2.length < a.2.length ∨
      (a.2.length = b.2.length ∧ fIdxAux a.1 records < fIdxAux b.1 records)))
    (hx : ∀ y ∈ l, x.2.length = y.2.length →
      fIdxAux x.1 records < fIdxAux y.1 records) :
    (insertGroup x l).Pairwise (fun a b => b.2.length < a.2.length ∨
      (a.2.length = b.2.length ∧
        fIdxAux a.1 records < fIdxAux b.1 records)) := by
  induction l with
  | nil => simp [insertGroup]
  | cons h t ih =>
    obtain ⟨hl1, hl2⟩ := List.pairwise_cons.mp hl
    by_cases hc : h.2.length ≤ x.2.length
    · rw [show insertGroup x (h :: t) = x :: h :: t by
        simp [insertGroup, hc]]
      refine List.pairwise_cons.mpr ⟨?_, List.pairwise_cons.mpr ⟨hl1, hl2⟩⟩
      intro y hy
      rcases List.mem_cons.mp hy with rfl | hyt
      · rcases Nat.lt_or_ge y.2.length x.2.length with hlt | hge
        · exact Or.inl hlt
        · have heq : x.2.length = y.2.length := Nat.le_antisymm hge hc
          exact Or.inr ⟨heq, hx y (List.mem_cons_self y t) heq⟩
      · rcases hl1 y hyt with hlt | ⟨heq, _⟩
        · exact Or.inl (Nat.lt_of_lt_of_le hlt hc)
        · rcases Nat.lt_or_ge y.2.length x.2.length with hlt2 | hge2
          · exact Or.inl hlt2
          · have heq2 : x.2.length = y.2.length := by omega
            exact Or.inr ⟨heq2,
              hx y (List.mem_cons_of_mem h hyt) heq2⟩
    · rw [show insertGroup x (h :: t) = h :: insertGroup x t by
        simp [insertGroup, hc]]
      have hxlt : x.2.length < h.2.length := Nat.lt_of_not_le hc
      refine List.pairwise_cons.mpr
        ⟨?_, ih hl2 (fun y hy => hx y (List.mem_cons_of_mem h hy))⟩
      intro y hy
      rcases (mem_insertGroup y x t).mp hy with rfl | hyt
      · exact Or.inl hxlt
      · exact hl1 y hyt

/-- Sorting a list whose groups appear in strictly increasing
first-occurrence order yields the descending order with first-occurrence
tie-break. -/
theorem pairwise_sortGroups (records : List UseCaseFlat)
    (l : List (String × List UseCaseFlat))
    (hl : l.Pairwise (fun a b => fIdxAux a.1 records < fIdxAux b.1 records)) :
    (sortGroups l).Pairwise (fun a b => b.2.length < a.2.length ∨
      (a.2.length = b.2.length ∧
        fIdxAux a.1 records < fIdxAux b.1 records)) := by
  induction l with
  | nil => simp [sortGroups]
  | cons x xs ih =>
    obtain ⟨h1, h2⟩ := List.pairwise_cons.mp hl
    rw [show sortGroups (x :: xs) = insertGroup x (sortGroups xs) from rfl]
    apply pairwise_insertGroup records x (sortGroups xs) (ih h2)
    intro y hy _
    exact h1 y ((perm_sortGroups xs).mem_iff.mp hy)

/-- C4: the grouped view partitions the evaluated set — group sizes sum to
the number of records, each group is exactly the records of its key in
canonical order, keys are pairwise distinct, every record lands in exactly
one group, and the groups are ordered by descending member count with ties
broken by first occurrence among the records. -/
theorem group_by_category_spec (records : List UseCaseFlat) :
    (((groupByCategory records).map (fun p => p.2.length)).sum =
      records.length) ∧
    (∀ p ∈ groupByCategory records,
      p.2 = records.filter (fun r => catKey r == p.1)) ∧
    ((groupByCategory records).map Prod.fst).Nodup ∧
    (∀ r ∈ records, ∃ p ∈ groupByCategory records,
      p.1 = catKey r ∧ r ∈ p.2) ∧
    (∀ p1 ∈ groupByCategory records, ∀ p2 ∈ groupByCategory records,
      ∀ r, r ∈ p1.2 → r ∈ p2.2 → p1 = p2) ∧
    ((groupByCategory records).Pairwise (fun a b =>
      b.2.length < a.2.length ∨
      (a.2.length = b.2.length ∧
        fIdxAux a.1 records < fIdxAux b.1 records))) := by
  obtain ⟨hnd, hval, hcov, hpw, hbnd⟩ := groupsInv_main records
  have hperm := perm_sortGroups (groupsOf records)
  have hmem : ∀ p, p ∈ groupByCategory records ↔ p ∈ groupsOf records :=
    fun p => hperm.mem_iff
  have hvalg : ∀ p ∈ groupByCategory records,
      p.2 = records.filter (fun r => catKey r == p.1) :=
    fun p hp => hval p ((hmem p).mp hp)
  have hndg : ((groupByCategory records).map Prod.fst).Nodup :=
    (hperm.map Prod.fst).nodup_iff.mpr hnd
  refine ⟨?_, hvalg, hndg, ?_, ?_, ?_⟩
  · rw [show groupByCategory records = sortGroups (groupsOf records)
      from rfl, (hperm.map (fun p => p.2.length)).sum_eq, sum_groupsOf]
  · intro r hr
    obtain ⟨p, hp, hp1⟩ := List.mem_map.mp (hcov r hr)
    refine ⟨p, (hmem p).mpr hp, hp1, ?_⟩
    rw [hval p hp]
    exact List.mem_filter.mpr ⟨hr, by simp [hp1]⟩
  · intro p1 hp1 p2 hp2 r hr1 hr2
    have hk1 : catKey r = p1.1 := by
      have := List.mem_filter.mp ((hvalg p1 hp1) ▸ hr1)
      simpa using this.2
    have hk2 : catKey r = p2.1 := by
      have := List.mem_filter.mp ((hvalg p2 hp2) ▸ hr2)
      simpa using this.2
    exact List.inj_on_of_nodup_map hndg hp1 hp2 (hk1.symm.trans hk2)
  · have hpw' : (groupsOf records).Pairwise
        (fun a b => fIdxAux a.1 records < fIdxAux b.1 records) :=
      List.Pairwise.of_map Prod.fst (fun a b h => h) hpw
    exact pairwise_sortGroups records (groupsOf records) hpw'

/-- Instantiation of `group_by_category_spec` on a concrete two-record
catalog. -/
theorem group_by_category_spec_witness :
    ((groupByCategory [rec0, rec1]).map (fun p => p.2.length)).sum = 2 ∧
    ((groupByCategory [rec0, rec1]).map Prod.fst).Nodup :=
  ⟨(group_by_category_spec [rec0, rec1]).1,
    (group_by_category_spec [rec0, rec1]).2.2.1⟩

/-- C10: a record whose category is the empty string is not dropped by the
grouping — it lands in the group keyed `"other"`. -/
theorem missing_category_grouped (records : List UseCaseFlat)
    (r : UseCaseFlat) (hr : r ∈ records) (hcat : r.category = "") :
    ∃ p ∈ groupByCategory records, p.1 = "other" ∧ r ∈ p.2 := by
  obtain ⟨hnd, hval, hcov, hpw, hbnd⟩ := groupsInv_main records
  have hkey : catKey r = "other" := by simp [catKey, hcat]
  obtain ⟨p, hp, hp1⟩ := List.mem_map.mp (hcov r hr)
  refine ⟨p, (perm_sortGroups (groupsOf records)).mem_iff.mpr hp,
    hkey ▸ hp1, ?_⟩
  rw [hval p hp]
  exact List.mem_filter.mpr ⟨hr, by simp [hp1]⟩

/-- Instantiation of `missing_category_grouped`: `rec0` has an empty
category and lands in the `"other"` group. -/
theorem missing_category_grouped_witness :
    ∃ p ∈ groupByCategory [rec0], p.1 = "other" ∧ rec0 ∈ p.2 :=
  missing_category_grouped [rec0] rec0 (List.mem_singleton_self rec0) rfl

/-- C7 counterexample: an input array whose only container misses every
required scalar field loads successfully — both loaders return the parsed
value unchanged instead of failing, and the malformed catalog is exposed
to the caller. -/
theorem load_no_error_counterexample :
    specWellFormedContainer (Json.obj []) = false ∧
    specWellFormedUseCase (Json.obj []) = false ∧
    getEpisodesModel (some (Json.arr [Json.obj []])) none =
      Json.arr [Json.obj []] ∧
    getUseCasesModel (some (Json.arr [Json.obj []])) =
      Json.arr [Json.obj []] :=
  ⟨rfl, rfl, rfl, rfl⟩

/-- C7 as amended: the loaders perform no validation of required scalar
fields — any parsed input, malformed containers included, is returned
unchanged, and a missing data file yields an empty list; no
malformed-input failure exists. -/
theorem load_no_validation (xs : List Json)
    (_hx : ∃ j ∈ xs, specWellFormedContainer j = false) :
    getEpisodesModel (some (Json.arr xs)) none = Json.arr xs ∧
    getUseCasesModel (some (Json.arr xs)) = Json.arr xs ∧
    getEpisodesModel none none = Json.arr [] ∧
    getUseCasesModel none = Json.arr [] :=
  ⟨rfl, rfl, rfl, rfl⟩

/-- Instantiation of `load_no_validation` on the malformed singleton. -/
theorem load_no_validation_witness :
    (∃ j ∈ [Json.obj []], specWellFormedContainer j = false) ∧
    getEpisodesModel (some (Json.arr [Json.obj []])) none =
      Json.arr [Json.obj []] :=
  ⟨⟨Json.obj [], List.mem_singleton_self _, rfl⟩,
    (load_no_validation [Json.obj []]
      ⟨Json.obj [], List.mem_singleton_self _, rfl⟩).1⟩
